import Mathlib

/-!
Verification development for the DSSIM core (dssim.c).

The C code is shallowly embedded over exact rationals: every float/double
operation of the source is modelled by the corresponding exact operation on
ℚ, so the theorems below speak about the real-number recipe the code
implements, not about IEEE rounding.  The one place where IEEE behaviour is
essential — the final `1.0 / (ssim_sum / total) - 1.0` of `dssim_compare`,
which can divide by zero — is modelled by the small result type `FVal`
(a finite rational, a positive infinity, or NaN), following IEEE division:
`0/0` is NaN, `q/0` with `q ≠ 0` is an infinity, `1/±inf` is `0`.
The sign of a floating-point zero is not tracked; an infinite result is
represented as `FVal.posInf` (the sign-of-zero distinction could only
matter for exact zero sums produced by negative weights).

Pixel planes are total functions `ℕ → ℕ → ℚ` (x, then y); the C stores
them row-major, so the C's `p[offset]` is `p (offset % width) (offset / width)`.
Buffers that the comparator frees or steals are `Option` planes, so the
destructive protocol of `dssim_compare` (it consumes the modified image's
`img`, `mu` and `img_sq_blur`) is visible in the model.  `ssim_map_out` is
modelled for the `NULL` case, the one exercised by every claim: the only
difference on the non-NULL path is that the `mu` buffer's contents are
handed to the caller instead of freed, which likewise leaves the original
image untouched.
-/

/-- A pixel plane: x-coordinate, then y-coordinate, to a sample. -/
def Plane : Type := ℕ → ℕ → ℚ

/-- The all-zero plane (stands for a buffer the model never reads). -/
def zeroPlane : Plane := fun _ _ => 0

/-- Pointwise square of a plane, `img[j] * img[j]`. -/
def squareP (p : Plane) : Plane := fun x y => p x y * p x y

/-- One 3-tap clamped box-blur pass over a row of width `w`, from
`regular_1d_blur`'s inner loops: `dstrow[i] = (row[MAX(0, i-1)] + row[i] +
row[MIN(width-1, i+1)]) / 3`.  Lean's truncated `i - 1` is exactly
`MAX(0, i-1)`.  The three unrolled loops of the C all compute this formula
at every in-range index when `width ≥ 4`; for smaller widths the first loop
of the C writes out of range, which is analysed separately by
`regular_1d_write_set`. -/
def blur_row_once (w : ℕ) (row : ℕ → ℚ) : ℕ → ℚ :=
  fun i => (row (i - 1) + row i + row (min (w - 1) (i + 1))) / 3

/-- A row callback of `regular_1d_blur` (`rowcallback`): it rewrites one row
before the first blur pass. -/
def RowCb : Type := (ℕ → ℚ) → ℕ → ℚ

/-- The `square_row` callback: `dst[i] = src[i] * src[i]`. -/
def square_row : RowCb := fun row i => row i * row i

/-- Application of an optional row callback to every row of a plane; in the
C this happens on run 0 of `regular_1d_blur`, before the first pass reads
the row. -/
def apply_row_cb (cb : Option RowCb) (p : Plane) : Plane :=
  match cb with
  | none => p
  | some f => fun x y => f (fun t => p t y) x

/-- The horizontal stage `regular_1d_blur`: `runs` 3-tap passes over every
row, with the optional callback applied to each source row before the first
pass.  With `runs = 0` the C loop body never executes (so neither does the
callback) and the destination is untouched; the model returns the source. -/
def regular_1d_blur (w : ℕ) (runs : ℕ) (cb : Option RowCb) (p : Plane) : Plane :=
  match runs with
  | 0 => p
  | r + 1 => fun x y => ((blur_row_once w)^[r + 1] (fun t => apply_row_cb cb p t y)) x

/-- The `transpose` of the C (flip x/y); on function planes it swaps the
arguments. -/
def transposeP (p : Plane) : Plane := fun x y => p y x

/-- The full separable `blur` of the C: `size` horizontal passes (with the
callback fused into the first), transpose, `size` passes over the rotated
image (whose rows have length `height`), transpose back. -/
def blur (width height size : ℕ) (cb : Option RowCb) (src : Plane) : Plane :=
  transposeP (regular_1d_blur height size none (transposeP (regular_1d_blur width size cb src)))

/-- One colour channel at one scale (`dssim_chan` without its `next_half`
pointer; the chain is modelled as a `List Chan` ordered by scale). -/
structure Chan where
  width : ℕ
  height : ℕ
  img : Option Plane
  mu : Option Plane
  img_sq_blur : Option Plane
  blur_size : ℕ
  is_chroma : Bool

/-- A placeholder channel, used only as the default of out-of-range list
reads in spec-side sums. -/
def dChan : Chan := ⟨0, 0, none, none, none, 0, false⟩

instance : Inhabited Chan := ⟨dChan⟩

/-- An image: its channels (1 or 3 in practice), each a scale chain ordered
from scale 0 down. -/
structure dssim_image where
  chan : List (List Chan)

/-- The 2×2 box downsample `subsampled_copy`:
`0.25 * (src[2x,2y] + src[2x+1,2y] + src[2x,2y+1] + src[2x+1,2y+1])`. -/
def subsampled_copy (p : Plane) : Plane :=
  fun x y => (1 / 4 : ℚ) * (p (2 * x) (2 * y) + p (2 * x + 1) (2 * y) +
    p (2 * x) (2 * y + 1) + p (2 * x + 1) (2 * y + 1))

/-- One level of `dssim_preprocess_channel`: the stored image (chroma gets
two extra in-place blur passes first), `mu = blur(img)` and
`img_sq_blur = blur(img², via square_row)` with `blur_size` passes. -/
def preprocess_level (w h bs : ℕ) (chroma : Bool) (p : Plane) : Chan :=
  let img1 := if chroma then blur w h 2 none p else p
  { width := w, height := h, img := some img1,
    mu := some (blur w h bs none img1),
    img_sq_blur := some (blur w h bs (some square_row) img1),
    blur_size := bs, is_chroma := chroma }

/-- The scale chain `dssim_preprocess_channel` builds for one channel:
whenever `num_scales > 1` it unconditionally creates a half-size channel
(`width/2 × height/2`, by integer division — the dimensions are never
tested against zero) from the 2×2 downsample of the raw image, then
finishes the current level. -/
def dssim_preprocess_channel : ℕ → ℕ → ℕ → ℕ → Bool → Plane → List Chan
  | 0, w, h, bs, chroma, p => [preprocess_level w h bs chroma p]
  | 1, w, h, bs, chroma, p => [preprocess_level w h bs chroma p]
  | (ns + 2), w, h, bs, chroma, p =>
    preprocess_level w h bs chroma p ::
      dssim_preprocess_channel (ns + 1) (w / 2) (h / 2) bs chroma (subsampled_copy p)

/-- The set of indices `regular_1d_blur` writes into one destination row of
width `width`, read off the three loops of the C: the first loop writes
`i = 0..3` unconditionally, the unrolled middle loop writes
`4 ≤ i < (width-1) & ~3`, and the tail loop writes from
`max 4 ((width-1) & ~3)` up to `width - 1`.  For `width ≥ 4` this is
exactly `0..width-1`; for smaller widths the first loop writes past the
row. -/
def regular_1d_write_set (width : ℕ) : Finset ℕ :=
  Finset.range 4 ∪ Finset.Ico 4 ((width - 1) / 4 * 4) ∪
    Finset.Ico (max 4 ((width - 1) / 4 * 4)) width

/-- The attribute bundle `dssim_attr` (the scratch buffer `tmp` carries no
observable value and is not modelled). `scale_weights` models the 5-entry
array as a total function; `num_scales` is the C `int`. -/
structure dssim_attr where
  color_weight : ℚ
  scale_weights : ℕ → ℚ
  num_scales : ℤ
  detail_size : ℕ
  subsample_chroma : Bool

/-- The IW-SSIM `default_weights` table. -/
def default_weights : ℕ → ℚ :=
  fun i => [448 / 10000, 2856 / 10000, 3001 / 10000, 2363 / 10000, 1333 / 10000].getD i 0

/-- The designated-initializer part of `dssim_create_attr`, before its
`dssim_set_scales(attr, 4, NULL)` call: `color_weight = 0.95`,
`detail_size = 1`, `subsample_chroma = true`, everything else zeroed. -/
def base_attr : dssim_attr :=
  { color_weight := 95 / 100, scale_weights := fun _ => 0, num_scales := 0,
    detail_size := 1, subsample_chroma := true }

/-- The `dssim_set_scales` of the C: `num_scales = MIN(MAX_SCALES, num)`
(no lower clamp), then the first `num_scales` entries of the weight table
(the default one when `weights` is NULL) are stored divided by their sum.
A non-positive `num` stores no weights (`Int.toNat` of it is 0, like the C
loop bound). -/
def dssim_set_scales (attr : dssim_attr) (num : ℤ) (weights : Option (ℕ → ℚ)) : dssim_attr :=
  let ns : ℤ := min 5 num
  let w := weights.getD default_weights
  let k := ns.toNat
  let sum := ∑ i in Finset.range k, w i
  { attr with
    num_scales := ns,
    scale_weights := fun i => if i < k then w i / sum else attr.scale_weights i }

/-- The complete `dssim_create_attr`. -/
def dssim_create_attr : dssim_attr := dssim_set_scales base_attr 4 none

/-- A comparator result: the C returns a double that can be finite, an
infinity, or NaN (see the file's header comment on IEEE division). -/
inductive FVal where
  | val : ℚ → FVal
  | posInf : FVal
  | nan : FVal
deriving DecidableEq

/-- Whether an `FVal` is a finite value. -/
def FVal.isVal : FVal → Bool
  | FVal.val _ => true
  | _ => false

/-- The final step of `dssim_compare`, `1.0 / (ssim_sum / total) - 1.0`,
under IEEE division (on exact sums): `0/0` then `1/NaN` is NaN; a zero
`ssim_sum` with nonzero `total` gives `1/0`, an infinity; otherwise the
value is the rational `total / ssim_sum - 1` (this also covers
`total = 0 ≠ ssim_sum`, where the C gets `1/±inf - 1 = -1 = 0/ssim_sum - 1`). -/
def aggregate (ssim_sum total : ℚ) : FVal :=
  if ssim_sum = 0 then (if total = 0 then FVal.nan else FVal.posInf)
  else FVal.val (total / ssim_sum - 1)

/-- The `get_img1_img2_blur` of the C: steal the modified channel's `img`
(it is multiplied in place by the original's and set to NULL on the
channel), then blur the product with the original's `blur_size`.  Returns
the blurred product and the modified channel with `img` gone. -/
def get_img1_img2_blur (original modified : Chan) : Plane × Chan :=
  let img1 := original.img.getD zeroPlane
  let img2 := modified.img.getD zeroPlane
  (blur original.width original.height original.blur_size none (fun x y => img2 x y * img1 x y),
    { modified with img := none })

/-- The per-offset SSIM term of `dssim_compare_channel`'s loop, with the C's
local variables: `c1 = 0.01 * 0.01`, `c2 = 0.03 * 0.03`, means and blurred
squares read at the row-major offset. -/
def ssimAt (mu1 mu2 img1_sq_blur img2_sq_blur img1_img2_blur : Plane) (w off : ℕ) : ℚ :=
  let x := off % w
  let y := off / w
  let mu1_sq := mu1 x y * mu1 x y
  let mu2_sq := mu2 x y * mu2 x y
  let mu1_mu2 := mu1 x y * mu2 x y
  let sigma1_sq := img1_sq_blur x y - mu1_sq
  let sigma2_sq := img2_sq_blur x y - mu2_sq
  let sigma12 := img1_img2_blur x y - mu1_mu2
  let c1 : ℚ := (1 / 100) * (1 / 100)
  let c2 : ℚ := (3 / 100) * (3 / 100)
  (2 * mu1_mu2 + c1) * (2 * sigma12 + c2) /
    ((mu1_sq + mu2_sq + c1) * (sigma1_sq + sigma2_sq + c2))

/-- The `dssim_compare_channel` of the C (NULL `ssim_map_out` path): a
dimension mismatch returns 0 with both channels untouched; otherwise the
per-pixel SSIM is accumulated over all `width * height` offsets and its
mean returned, the modified channel losing `img` (taken by
`get_img1_img2_blur`), `mu` and `img_sq_blur`.  Result: (value, original
channel after the call, modified channel after the call). -/
def dssim_compare_channel (original modified : Chan) : ℚ × Chan × Chan :=
  if original.width ≠ modified.width ∨ original.height ≠ modified.height then
    (0, original, modified)
  else
    let w := original.width
    let h := original.height
    let mu1 := original.mu.getD zeroPlane
    let mu2 := modified.mu.getD zeroPlane
    let img1_sq_blur := original.img_sq_blur.getD zeroPlane
    let img2_sq_blur := modified.img_sq_blur.getD zeroPlane
    let gb := get_img1_img2_blur original modified
    let ssim_sum := (List.range (w * h)).foldl
      (fun acc off => acc + ssimAt mu1 mu2 img1_sq_blur img2_sq_blur gb.1 w off) 0
    (ssim_sum / ((w * h : ℕ) : ℚ), original,
      { gb.2 with mu := none, img_sq_blur := none })

/-- The state of one channel's scale loop in `dssim_compare`. -/
structure SLOut where
  ssim_sum : ℚ
  total : ℚ
  orig : List Chan
  modif : List Chan

/-- The inner scale loop of `dssim_compare` for one channel pair, from scale
index `n`: while `n < ns`, compare the heads, accumulate
`weight = (is_chroma ? color_weight : 1) * scale_weights[n]` times the
channel value into `ssim_sum` and `weight` into `total`, then advance both
chains and break if either has no `next_half`. -/
def scaleLoop (cw : ℚ) (sw : ℕ → ℚ) (ns : ℕ) : ℕ → List Chan → List Chan → SLOut
  | n, oc :: os, mc :: ms =>
    if n < ns then
      let step := dssim_compare_channel oc mc
      let weight := (if oc.is_chroma then cw else 1) * sw n
      let rest :=
        if os.isEmpty || ms.isEmpty then SLOut.mk 0 0 os ms
        else scaleLoop cw sw ns (n + 1) os ms
      SLOut.mk (weight * step.1 + rest.ssim_sum) (weight + rest.total)
        (step.2.1 :: rest.orig) (step.2.2 :: rest.modif)
    else SLOut.mk 0 0 (oc :: os) (mc :: ms)
  | _, o, m => SLOut.mk 0 0 o m

/-- The state of the channel loop in `dssim_compare`. -/
structure CLOut where
  ssim_sum : ℚ
  total : ℚ
  orig : List (List Chan)
  modif : List (List Chan)

/-- The outer channel loop of `dssim_compare`: channels
`0 .. MIN(original.channels, modified.channels) - 1`, each running the
scale loop from scale 0. -/
def channelLoop (cw : ℚ) (sw : ℕ → ℚ) (ns : ℕ) :
    List (List Chan) → List (List Chan) → CLOut
  | oc :: os, mc :: ms =>
    let s := scaleLoop cw sw ns 0 oc mc
    let rest := channelLoop cw sw ns os ms
    CLOut.mk (s.ssim_sum + rest.ssim_sum) (s.total + rest.total)
      (s.orig :: rest.orig) (s.modif :: rest.modif)
  | o, m => CLOut.mk 0 0 o m

/-- The `dssim_compare` of the C (NULL `ssim_map_out`): the weighted channel
and scale loop, then `1/(ssim_sum/total) - 1` under IEEE division.  Returns
the value together with both images as they stand after the call. -/
def dssim_compare (attr : dssim_attr) (original modified : dssim_image) :
    FVal × dssim_image × dssim_image :=
  let r := channelLoop attr.color_weight attr.scale_weights attr.num_scales.toNat
    original.chan modified.chan
  (aggregate r.ssim_sum r.total, dssim_image.mk r.orig, dssim_image.mk r.modif)

/-- The two accumulators of `dssim_compare` (`ssim_sum`, `total`). -/
def compareSums (attr : dssim_attr) (a b : dssim_image) : ℚ × ℚ :=
  let r := channelLoop attr.color_weight attr.scale_weights attr.num_scales.toNat a.chan b.chan
  (r.ssim_sum, r.total)

/-- A Lab-like triple (`dssim_lab`). -/
structure dssim_lab where
  l : ℚ
  A : ℚ
  b : ℚ

/-- The `rgb_to_lab` of the C over an abstract gamma lookup table
`lut : ℕ → ℚ` (the C builds it with `pow`, which has no exact rational
value; every theorem below holds for an arbitrary table) and an abstract
cube root `cbrt` standing for `powf(·, 1/3)`.  All other constants are the
exact rationals of the source: D65 white `(0.9505, 1, 1.089)`, the XYZ
matrix rows, `epsilon = 216/24389`, `k = (24389/27)/116`, and the output
scalings `(1.16, 86.2/220 + 500/220·(X−Y), 107.9/220 + 200/220·(Y−Z))`. -/
def rgb_to_lab (cbrt : ℚ → ℚ) (lut : ℕ → ℚ) (pxr pxg pxb : ℕ) : dssim_lab :=
  let r := lut pxr
  let g := lut pxg
  let b := lut pxb
  let fx := (r * (4124 / 10000) + g * (3576 / 10000) + b * (1805 / 10000)) / (9505 / 10000)
  let fy := (r * (2126 / 10000) + g * (7152 / 10000) + b * (722 / 10000)) / 1
  let fz := (r * (193 / 10000) + g * (1192 / 10000) + b * (9505 / 10000)) / (1089 / 1000)
  let epsilon : ℚ := 216 / 24389
  let k : ℚ := (24389 / 27) / 116
  let X := if fx > epsilon then cbrt fx - 16 / 116 else k * fx
  let Y := if fy > epsilon then cbrt fy - 16 / 116 else k * fy
  let Z := if fz > epsilon then cbrt fz - 16 / 116 else k * fz
  { l := Y * (116 / 100),
    A := 862 / 2200 + (500 / 220) * (X - Y),
    b := 1079 / 2200 + (200 / 220) * (Y - Z) }

/-- One iteration of `convert_image_row_gray_init`'s loop:
`gamma_lut[i] = rgb_to_lab(gamma_lut, i, i, i).l` (entry `i` is read before
it is overwritten). -/
def gray_init_step (cbrt : ℚ → ℚ) (i : ℕ) (lut : ℕ → ℚ) : ℕ → ℚ :=
  Function.update lut i (rgb_to_lab cbrt lut i i i).l

/-- The first `k` iterations of `convert_image_row_gray_init` (the C runs
`k = 256`, in increasing index order). -/
def gray_init_upto (cbrt : ℚ → ℚ) : ℕ → (ℕ → ℚ) → (ℕ → ℚ)
  | 0, lut => lut
  | k + 1, lut => gray_init_step cbrt k (gray_init_upto cbrt k lut)

/-- The complete `convert_image_row_gray_init`. -/
def convert_image_row_gray_init (cbrt : ℚ → ℚ) (lut : ℕ → ℚ) : ℕ → ℚ :=
  gray_init_upto cbrt 256 lut

/-- The GRAY row converter `convert_image_row_gray`: a single table lookup
per pixel (the row holds 8-bit values). -/
def convert_image_row_gray (lut : ℕ → ℚ) (row : ℕ → ℕ) (x : ℕ) : ℚ :=
  lut (row x)

/-- The luma plane written by the RGB row converter `convert_image_row_rgb`
(`channels[0][x] = rgb_to_lab(...).l`). -/
def convert_image_row_rgb_luma (cbrt : ℚ → ℚ) (lut : ℕ → ℚ)
    (rowR rowG rowB : ℕ → ℕ) (x : ℕ) : ℚ :=
  (rgb_to_lab cbrt lut (rowR x) (rowG x) (rowB x)).l

/-- The per-offset SSIM formula stated by the specification, verbatim:
`((2·μ1μ2 + c1)(2·σ12 + c2)) / ((μ1² + μ2² + c1)(σ1² + σ2² + c2))` with
`c1 = 0.0001`, `c2 = 0.0009`, `σ1² = img1_sq_blur − μ1²`,
`σ2² = img2_sq_blur − μ2²`, `σ12 = img1_img2_blur − μ1·μ2`. -/
def specSsimAt (mu1 mu2 img1_sq_blur img2_sq_blur img1_img2_blur : Plane) (w off : ℕ) : ℚ :=
  let x := off % w
  let y := off / w
  let sigma1_sq := img1_sq_blur x y - mu1 x y ^ 2
  let sigma2_sq := img2_sq_blur x y - mu2 x y ^ 2
  let sigma12 := img1_img2_blur x y - mu1 x y * mu2 x y
  (2 * (mu1 x y * mu2 x y) + 1 / 10000) * (2 * sigma12 + 9 / 10000) /
    ((mu1 x y ^ 2 + mu2 x y ^ 2 + 1 / 10000) * (sigma1_sq + sigma2_sq + 9 / 10000))

/-- The channel-scale value stated by the specification: the arithmetic mean
of `specSsimAt` over all `width * height` pixels. -/
def specChannelMean (original modified : Chan) : ℚ :=
  (∑ off in Finset.range (original.width * original.height),
    specSsimAt (original.mu.getD zeroPlane) (modified.mu.getD zeroPlane)
      (original.img_sq_blur.getD zeroPlane) (modified.img_sq_blur.getD zeroPlane)
      (get_img1_img2_blur original modified).1 original.width off) /
    ((original.width * original.height : ℕ) : ℚ)

/-- The weight `w(ch, s) = (is_chroma ? color_weight : 1.0) × scale_weights[s]`
stated by the specification. -/
def specWeight (attr : dssim_attr) (c : Chan) (s : ℕ) : ℚ :=
  (if c.is_chroma then attr.color_weight else 1) * attr.scale_weights s

/-- How many scales of one channel pair are actually compared: the loop runs
scale `s` exactly when `s < num_scales` and both chains still have a channel
at scale `s`. -/
def comparedScales (attr : dssim_attr) (o m : List Chan) : ℕ :=
  min attr.num_scales.toNat (min o.length m.length)

/-- The channel pair the sums read at channel `ch`, scale `s`. -/
def specPair (a b : dssim_image) (ch s : ℕ) : Chan × Chan :=
  ((a.chan.getD ch []).getD s dChan, (b.chan.getD ch []).getD s dChan)

/-- The specification's `S`: the sum over the compared (channel, scale)
pairs of `w(ch, s) · channel_scale_mean`. -/
def specS (attr : dssim_attr) (a b : dssim_image) : ℚ :=
  ∑ ch in Finset.range (min a.chan.length b.chan.length),
    ∑ s in Finset.range (comparedScales attr (a.chan.getD ch []) (b.chan.getD ch [])),
      specWeight attr (specPair a b ch s).1 s *
        (dssim_compare_channel (specPair a b ch s).1 (specPair a b ch s).2).1

/-- The specification's `T`: the sum of the same weights. -/
def specT (attr : dssim_attr) (a b : dssim_image) : ℚ :=
  ∑ ch in Finset.range (min a.chan.length b.chan.length),
    ∑ s in Finset.range (comparedScales attr (a.chan.getD ch []) (b.chan.getD ch [])),
      specWeight attr (specPair a b ch s).1 s

/-- A channel as `dssim_create_image` leaves it: its `mu` and `img_sq_blur`
are the `blur_size`-pass blurs of the stored image and of its square (this
is exactly what `dssim_preprocess_channel` computes), the blur runs at
least one pass, and the channel is non-empty. -/
def GoodChan (c : Chan) : Prop :=
  ∃ p, c.img = some p ∧ c.mu = some (blur c.width c.height c.blur_size none p) ∧
    c.img_sq_blur = some (blur c.width c.height c.blur_size (some square_row) p) ∧
    1 ≤ c.blur_size ∧ 0 < c.width * c.height

/-- An attribute bundle with a single scale (`dssim_set_scales(attr, 1, NULL)`
normalises the one default weight to 1). -/
def attr1 : dssim_attr := dssim_set_scales dssim_create_attr 1 none

/-- A concrete 4×4 single-channel, single-scale image (planes untouched by a
mismatched compare, so they may be absent). -/
def img4x4 : dssim_image :=
  dssim_image.mk [[⟨4, 4, some zeroPlane, some zeroPlane, some zeroPlane, 1, false⟩]]

/-- A concrete 4×5 single-channel, single-scale image. -/
def img4x5 : dssim_image :=
  dssim_image.mk [[⟨4, 5, some zeroPlane, some zeroPlane, some zeroPlane, 1, false⟩]]

/-- A concrete constant 1×1 plane. -/
def halfPlane : Plane := fun _ _ => 1 / 2

/-- A concrete preprocessed 1×1 single-channel, single-scale image (the
chain `dssim_preprocess_channel` builds for a 1×1 luma plane with one
scale and `blur_size = 1`). -/
def img1x1 : dssim_image :=
  dssim_image.mk [dssim_preprocess_channel 1 1 1 1 false halfPlane]

/-- A concrete matched channel pair for the channel-formula witness. -/
def chanA : Chan :=
  { width := 1, height := 1, img := some halfPlane, mu := some halfPlane,
    img_sq_blur := some (squareP halfPlane), blur_size := 1, is_chroma := false }

/-- The second channel of the pair, with different samples. -/
def chanB : Chan :=
  { width := 1, height := 1, img := some (fun _ _ => 1 / 4), mu := some (fun _ _ => 1 / 4),
    img_sq_blur := some (fun _ _ => 1 / 16), blur_size := 1, is_chroma := false }

/-- A concrete gamma table for the gray-path witness. -/
def lutW : ℕ → ℚ := fun i => (i : ℚ) / 255

/-- A concrete pixel row for the gray-path witness. -/
def rowW : ℕ → ℕ := fun _ => 7

/-- A concrete 4×5 channel, mismatched against `chanA`. -/
def chanC : Chan := ⟨4, 5, some zeroPlane, some zeroPlane, some zeroPlane, 1, false⟩

/-- Folding `acc + f i` over `List.range n` is the `Finset` sum. -/
theorem foldl_add_range (f : ℕ → ℚ) : ∀ (n : ℕ) (c : ℚ),
    (List.range n).foldl (fun acc i => acc + f i) c = c + ∑ i in Finset.range n, f i := by
  intro n
  induction n with
  | zero => intro c; simp
  | succ k ih =>
    intro c
    rw [List.range_succ, List.foldl_append, ih, Finset.sum_range_succ]
    simp [add_assoc]

/-- C1: for every channel pair with matching dimensions, the value
`dssim_compare_channel` returns is the arithmetic mean, over all
`width * height` pixels, of the specification's per-pixel SSIM
`((2·μ1μ2 + c1)(2·σ12 + c2)) / ((μ1² + μ2² + c1)(σ1² + σ2² + c2))` with
`c1 = 0.0001`, `c2 = 0.0009`, `σ1² = img1_sq_blur − μ1²`,
`σ2² = img2_sq_blur − μ2²`, `σ12 = img1_img2_blur − μ1μ2`. -/
theorem compare_channel_is_spec_mean (o m : Chan)
    (hw : o.width = m.width) (hh : o.height = m.height) :
    (dssim_compare_channel o m).1 = specChannelMean o m := by
  have hcond : ¬(o.width ≠ m.width ∨ o.height ≠ m.height) := by simp [hw, hh]
  unfold dssim_compare_channel specChannelMean
  rw [if_neg hcond]
  simp only [foldl_add_range, zero_add]
  congr 1
  refine Finset.sum_congr rfl (fun off _ => ?_)
  unfold ssimAt specSsimAt
  ring

/-- Witness for C1 at a concrete matched channel pair. -/
theorem compare_channel_is_spec_mean_witness :
    chanA.width = chanB.width ∧ chanA.height = chanB.height ∧
      (dssim_compare_channel chanA chanB).1 = specChannelMean chanA chanB :=
  ⟨rfl, rfl, compare_channel_is_spec_mean chanA chanB rfl rfl⟩

/-- A channel compare never writes through the original channel. -/
theorem compare_channel_orig (o m : Chan) : (dssim_compare_channel o m).2.1 = o := by
  unfold dssim_compare_channel
  split <;> rfl

/-- The scale loop returns the original chain untouched. -/
theorem scaleLoop_orig (cw : ℚ) (sw : ℕ → ℚ) (ns : ℕ) :
    ∀ (o m : List Chan) (n : ℕ), (scaleLoop cw sw ns n o m).orig = o := by
  intro o
  induction o with
  | nil => intro m n; cases m <;> rfl
  | cons oc os ih =>
    intro m n
    cases m with
    | nil => rfl
    | cons mc ms =>
      by_cases hn : n < ns
      · by_cases he : os.isEmpty || ms.isEmpty
        · simp [scaleLoop, hn, he, compare_channel_orig]
        · simp [scaleLoop, hn, he, compare_channel_orig, ih]
      · simp [scaleLoop, hn]

/-- The channel loop returns the original image's channel list untouched. -/
theorem channelLoop_orig (cw : ℚ) (sw : ℕ → ℚ) (ns : ℕ) :
    ∀ (o m : List (List Chan)), (channelLoop cw sw ns o m).orig = o := by
  intro o
  induction o with
  | nil => intro m; cases m <;> rfl
  | cons oc os ih =>
    intro m
    cases m with
    | nil => rfl
    | cons mc ms => simp [channelLoop, scaleLoop_orig, ih]

/-- C10: `dssim_compare` leaves the original (first) image completely
unchanged — every channel at every scale keeps its width, height, `img`,
`mu`, `img_sq_blur` and `next_half` chain; only the modified image's
buffers are consumed. -/
theorem dssim_compare_preserves_original (attr : dssim_attr) (a b : dssim_image) :
    (dssim_compare attr a b).2.1 = a := by
  cases a with
  | mk chans => simp [dssim_compare, channelLoop_orig]

/-- The scale loop's `ssim_sum` accumulator is the weighted sum over the
compared scales: exactly `min (ns - n) (min |o| |m|)` of them are run. -/
theorem scaleLoop_ssim_sum (cw : ℚ) (sw : ℕ → ℚ) (ns : ℕ) :
    ∀ (o m : List Chan) (n : ℕ),
      (scaleLoop cw sw ns n o m).ssim_sum =
        ∑ i in Finset.range (min (ns - n) (min o.length m.length)),
          ((if (o.getD i dChan).is_chroma then cw else 1) * sw (n + i)) *
            (dssim_compare_channel (o.getD i dChan) (m.getD i dChan)).1 := by
  intro o
  induction o with
  | nil => intro m n; cases m <;> simp [scaleLoop]
  | cons oc os ih =>
    intro m n
    cases m with
    | nil => simp [scaleLoop]
    | cons mc ms =>
      by_cases hn : n < ns
      · have hcount : min (ns - n) (min (oc :: os).length (mc :: ms).length) =
            min (ns - (n + 1)) (min os.length ms.length) + 1 := by
          simp only [List.length_cons]; omega
        rw [hcount, Finset.sum_range_succ']
        simp only [List.getD_cons_succ, List.getD_cons_zero, Nat.add_zero]
        by_cases he : os.isEmpty || ms.isEmpty
        · have hK : min (ns - (n + 1)) (min os.length ms.length) = 0 := by
            rcases Bool.or_eq_true_iff.mp he with h | h
            · have := List.isEmpty_iff_length_eq_zero.mp h
              omega
            · have := List.isEmpty_iff_length_eq_zero.mp h
              omega
          rw [hK]
          simp [scaleLoop, hn, he]
        · simp only [scaleLoop, hn, if_true, he, if_false, Bool.false_eq_true]
          rw [ih]
          have hsum : ∀ K : ℕ,
              (∑ i in Finset.range K,
                ((if (os.getD i dChan).is_chroma then cw else 1) * sw (n + (i + 1))) *
                  (dssim_compare_channel (os.getD i dChan) (ms.getD i dChan)).1) =
              ∑ i in Finset.range K,
                ((if (os.getD i dChan).is_chroma then cw else 1) * sw (n + 1 + i)) *
                  (dssim_compare_channel (os.getD i dChan) (ms.getD i dChan)).1 := by
            intro K
            refine Finset.sum_congr rfl (fun i _ => ?_)
            rw [show n + (i + 1) = n + 1 + i by omega]
          rw [hsum]
          ring
      · have h0 : min (ns - n) (min (oc :: os).length (mc :: ms).length) = 0 := by
          simp only [List.length_cons]; omega
        rw [h0]
        simp [scaleLoop, hn]

/-- The scale loop's `total` accumulator is the plain sum of the same
weights over the same compared scales. -/
theorem scaleLoop_total (cw : ℚ) (sw : ℕ → ℚ) (ns : ℕ) :
    ∀ (o m : List Chan) (n : ℕ),
      (scaleLoop cw sw ns n o m).total =
        ∑ i in Finset.range (min (ns - n) (min o.length m.length)),
          ((if (o.getD i dChan).is_chroma then cw else 1) * sw (n + i)) := by
  intro o
  induction o with
  | nil => intro m n; cases m <;> simp [scaleLoop]
  | cons oc os ih =>
    intro m n
    cases m with
    | nil => simp [scaleLoop]
    | cons mc ms =>
      by_cases hn : n < ns
      · have hcount : min (ns - n) (min (oc :: os).length (mc :: ms).length) =
            min (ns - (n + 1)) (min os.length ms.length) + 1 := by
          simp only [List.length_cons]; omega
        rw [hcount, Finset.sum_range_succ']
        simp only [List.getD_cons_succ, List.getD_cons_zero, Nat.add_zero]
        by_cases he : os.isEmpty || ms.isEmpty
        · have hK : min (ns - (n + 1)) (min os.length ms.length) = 0 := by
            rcases Bool.or_eq_true_iff.mp he with h | h
            · have := List.isEmpty_iff_length_eq_zero.mp h
              omega
            · have := List.isEmpty_iff_length_eq_zero.mp h
              omega
          rw [hK]
          simp [scaleLoop, hn, he]
        · simp only [scaleLoop, hn, if_true, he, if_false, Bool.false_eq_true]
          rw [ih]
          have hsum : ∀ K : ℕ,
              (∑ i in Finset.range K,
                ((if (os.getD i dChan).is_chroma then cw else 1) * sw (n + (i + 1)))) =
              ∑ i in Finset.range K,
                ((if (os.getD i dChan).is_chroma then cw else 1) * sw (n + 1 + i)) := by
            intro K
            refine Finset.sum_congr rfl (fun i _ => ?_)
            rw [show n + (i + 1) = n + 1 + i by omega]
          rw [hsum]
          ring
      · have h0 : min (ns - n) (min (oc :: os).length (mc :: ms).length) = 0 := by
          simp only [List.length_cons]; omega
        rw [h0]
        simp [scaleLoop, hn]

/-- The channel loop's `ssim_sum` is the sum of the per-channel scale-loop
sums over the compared channels. -/
theorem channelLoop_ssim_sum (cw : ℚ) (sw : ℕ → ℚ) (ns : ℕ) :
    ∀ (o m : List (List Chan)),
      (channelLoop cw sw ns o m).ssim_sum =
        ∑ ch in Finset.range (min o.length m.length),
          (scaleLoop cw sw ns 0 (o.getD ch []) (m.getD ch [])).ssim_sum := by
  intro o
  induction o with
  | nil => intro m; cases m <;> simp [channelLoop]
  | cons oc os ih =>
    intro m
    cases m with
    | nil => simp [channelLoop]
    | cons mc ms =>
      have hcount : min (oc :: os).length (mc :: ms).length = min os.length ms.length + 1 := by
        simp only [List.length_cons]; omega
      rw [hcount, Finset.sum_range_succ']
      simp only [List.getD_cons_succ, List.getD_cons_zero]
      simp only [channelLoop]
      rw [ih]
      ring

/-- The channel loop's `total` is the sum of the per-channel weight sums
over the compared channels. -/
theorem channelLoop_total (cw : ℚ) (sw : ℕ → ℚ) (ns : ℕ) :
    ∀ (o m : List (List Chan)),
      (channelLoop cw sw ns o m).total =
        ∑ ch in Finset.range (min o.length m.length),
          (scaleLoop cw sw ns 0 (o.getD ch []) (m.getD ch [])).total := by
  intro o
  induction o with
  | nil => intro m; cases m <;> simp [channelLoop]
  | cons oc os ih =>
    intro m
    cases m with
    | nil => simp [channelLoop]
    | cons mc ms =>
      have hcount : min (oc :: os).length (mc :: ms).length = min os.length ms.length + 1 := by
        simp only [List.length_cons]; omega
      rw [hcount, Finset.sum_range_succ']
      simp only [List.getD_cons_succ, List.getD_cons_zero]
      simp only [channelLoop]
      rw [ih]
      ring

/-- The two accumulators of `dssim_compare` are exactly the specification's
`S` and `T`. -/
theorem compareSums_spec (attr : dssim_attr) (a b : dssim_image) :
    compareSums attr a b = (specS attr a b, specT attr a b) := by
  unfold compareSums specS specT
  refine Prod.ext ?_ ?_
  · simp only [channelLoop_ssim_sum]
    refine Finset.sum_congr rfl (fun ch _ => ?_)
    rw [scaleLoop_ssim_sum]
    refine Finset.sum_congr ?_ (fun s _ => ?_)
    · unfold comparedScales
      simp
    · unfold specWeight specPair
      simp
  · simp only [channelLoop_total]
    refine Finset.sum_congr rfl (fun ch _ => ?_)
    rw [scaleLoop_total]
    refine Finset.sum_congr ?_ (fun s _ => ?_)
    · unfold comparedScales
      simp
    · unfold specWeight specPair
      simp

/-- The value of `dssim_compare` is the IEEE aggregation of `specS` and
`specT`. -/
theorem dssim_compare_fst (attr : dssim_attr) (a b : dssim_image) :
    (dssim_compare attr a b).1 = aggregate (specS attr a b) (specT attr a b) := by
  have hS : (channelLoop attr.color_weight attr.scale_weights attr.num_scales.toNat
      a.chan b.chan).ssim_sum = specS attr a b :=
    congrArg Prod.fst (compareSums_spec attr a b)
  have hT : (channelLoop attr.color_weight attr.scale_weights attr.num_scales.toNat
      a.chan b.chan).total = specT attr a b :=
    congrArg Prod.snd (compareSums_spec attr a b)
  show aggregate
    (channelLoop attr.color_weight attr.scale_weights attr.num_scales.toNat
      a.chan b.chan).ssim_sum
    (channelLoop attr.color_weight attr.scale_weights attr.num_scales.toNat
      a.chan b.chan).total = aggregate (specS attr a b) (specT attr a b)
  rw [hS, hT]

/-- C2: `dssim_compare` returns `1/(S/T) − 1` where `S` sums
`w(ch,s) · channel_scale_mean` and `T` sums the same weights
`w(ch,s) = (is_chroma ? color_weight : 1) · scale_weights[s]` over exactly
the compared (channel, scale) pairs — when the scale loop stops early at a
missing `next_half`, only the weights actually summed enter `T`
(`comparedScales` is `min num_scales (min |chain_a| |chain_b|)`). -/
theorem dssim_compare_weighted_aggregation (attr : dssim_attr) (a b : dssim_image)
    (hS : specS attr a b ≠ 0) :
    compareSums attr a b = (specS attr a b, specT attr a b) ∧
      (dssim_compare attr a b).1 =
        FVal.val (1 / (specS attr a b / specT attr a b) - 1) := by
  refine ⟨compareSums_spec attr a b, ?_⟩
  rw [dssim_compare_fst]
  unfold aggregate
  rw [if_neg hS, one_div, inv_div]

/-- Witness for C2 at a concrete compare with a nonzero weighted sum. -/
theorem dssim_compare_weighted_aggregation_witness :
    compareSums attr1 img4x4 img4x4 = (specS attr1 img4x4 img4x4, specT attr1 img4x4 img4x4) ∧
      (dssim_compare attr1 img4x4 img4x4).1 =
        FVal.val (1 / (specS attr1 img4x4 img4x4 / specT attr1 img4x4 img4x4) - 1) :=
  dssim_compare_weighted_aggregation attr1 img4x4 img4x4 (by
    rw [show specS attr1 img4x4 img4x4 = 1 from by with_unfolding_all rfl]
    norm_num)

/-- C3 (amended): a channel-scale pair whose dimensions disagree
contributes 0 as its sub-measure (its weight still enters the total, by
`scaleLoop_total`); the overall 4×4 vs 4×5 single-scale compare then
returns `+∞`, not 0, since `1/(0/T) − 1` divides by zero. -/
theorem compare_channel_mismatch_zero (o m : Chan)
    (h : o.width ≠ m.width ∨ o.height ≠ m.height) :
    (dssim_compare_channel o m).1 = 0 := by
  unfold dssim_compare_channel
  rw [if_pos h]

/-- Witness for the amended C3 at a concrete mismatched channel pair. -/
theorem compare_channel_mismatch_zero_witness :
    (chanA.width ≠ chanC.width ∨ chanA.height ≠ chanC.height) ∧
      (dssim_compare_channel chanA chanC).1 = 0 :=
  ⟨Or.inl (by decide), compare_channel_mismatch_zero chanA chanC (Or.inl (by decide))⟩

/-- Counterexample to C3 as stated: the 4×4 vs 4×5 single-channel,
single-scale compare returns `+∞` (IEEE `1/(0/1) − 1`), not 0. -/
theorem dssim_compare_mismatch_not_zero :
    (dssim_compare attr1 img4x4 img4x5).1 = FVal.posInf ∧
      FVal.posInf ≠ FVal.val 0 := by
  constructor
  · with_unfolding_all rfl
  · decide

/-- C4 (amended): the return value of `dssim_compare` is NaN exactly when
both accumulated sums are zero, `+∞` exactly when the weighted SSIM sum is
zero but the weight total is not (e.g. a dimension mismatch zeroing the
only sub-measure), and otherwise the finite value `T/S − 1`; it is neither
guaranteed finite nor guaranteed non-negative in general. -/
theorem dssim_compare_return_trichotomy (attr : dssim_attr) (a b : dssim_image) :
    ((dssim_compare attr a b).1 = FVal.nan ↔ specS attr a b = 0 ∧ specT attr a b = 0) ∧
      ((dssim_compare attr a b).1 = FVal.posInf ↔ specS attr a b = 0 ∧ specT attr a b ≠ 0) ∧
      (specS attr a b ≠ 0 →
        (dssim_compare attr a b).1 = FVal.val (specT attr a b / specS attr a b - 1)) := by
  rw [dssim_compare_fst]
  unfold aggregate
  by_cases hS : specS attr a b = 0
  · by_cases hT : specT attr a b = 0
    · simp [hS, hT]
    · simp [hS, hT]
  · simp [hS]

/-- Counterexample to C4 as stated: a dimension-mismatched compare returns
an infinity — not a finite number and not NaN. -/
theorem dssim_compare_can_be_infinite :
    (dssim_compare attr1 img4x4 img4x5).1 = FVal.posInf ∧
      FVal.posInf.isVal = false ∧ FVal.posInf ≠ FVal.nan := by
  refine ⟨?_, ?_, ?_⟩
  · with_unfolding_all rfl
  · decide
  · decide

/-- C7 (amended): `dssim_set_scales` stores `num_scales = min 5 n` — there
is no lower clamp, so the stored value lies in `[1, 5]` exactly when the
requested `n` is at least 1. -/
theorem set_scales_range_of_pos (attr : dssim_attr) (n : ℤ) (w : Option (ℕ → ℚ))
    (hn : 1 ≤ n) :
    1 ≤ (dssim_set_scales attr n w).num_scales ∧
      (dssim_set_scales attr n w).num_scales ≤ 5 := by
  show (1 : ℤ) ≤ min 5 n ∧ min (5 : ℤ) n ≤ 5
  exact ⟨le_min (by norm_num) hn, min_le_left _ _⟩

/-- Witness for the amended C7 at `n = 3`. -/
theorem set_scales_range_of_pos_witness :
    (1 : ℤ) ≤ 3 ∧
      (1 ≤ (dssim_set_scales dssim_create_attr 3 none).num_scales ∧
        (dssim_set_scales dssim_create_attr 3 none).num_scales ≤ 5) :=
  ⟨by decide, set_scales_range_of_pos dssim_create_attr 3 none (by decide)⟩

/-- Counterexample to C7 as stated: `dssim_set_scales(attr, 0, NULL)`
stores `num_scales = 0`, outside `[1, 5]`. -/
theorem set_scales_zero_out_of_range :
    (dssim_set_scales dssim_create_attr 0 none).num_scales = 0 ∧
      ¬(1 ≤ (dssim_set_scales dssim_create_attr 0 none).num_scales) := by
  refine ⟨?_, ?_⟩
  · decide
  · decide

/-- C6 (code bug): for a one-pixel-wide image the pyramid is not cut short —
`dssim_preprocess_channel` with the default 4 scales builds levels of
dimensions `1×4, 0×2, 0×1, 0×0` (the spec's `floor(W/2^s) × floor(H/2^s)`,
but zero-dimension scales are created instead of skipped), and the write
pattern of `regular_1d_blur` touches index 3 of a width-1 row, out of
range. -/
theorem preprocess_one_pixel_wide_oob :
    ((dssim_preprocess_channel 4 1 4 2 false zeroPlane).map fun c => (c.width, c.height)) =
        [(1, 4), (0, 2), (0, 1), (0, 0)] ∧
      (dssim_preprocess_channel 4 1 4 2 false zeroPlane).length = 4 ∧
      3 ∈ regular_1d_write_set 1 ∧ ¬(3 < 1) := by
  refine ⟨?_, ?_, ?_, ?_⟩
  · decide
  · decide
  · decide
  · decide

/-- Conversion of one pixel reads the gamma table only at its three
component values. -/
theorem rgb_to_lab_congr (cbrt : ℚ → ℚ) (lutA lutB : ℕ → ℚ) (r g b : ℕ)
    (hr : lutA r = lutB r) (hg : lutA g = lutB g) (hb : lutA b = lutB b) :
    rgb_to_lab cbrt lutA r g b = rgb_to_lab cbrt lutB r g b := by
  unfold rgb_to_lab
  rw [hr, hg, hb]

/-- After `k` iterations of the gray-LUT initialisation, entry `v` holds
`rgb_to_lab(lut, v, v, v).l` for `v < k` and is untouched otherwise: the
loop writes entry `i` only after reading it, so every conversion sees the
original table at its own index. -/
theorem gray_init_upto_eval (cbrt : ℚ → ℚ) (lut : ℕ → ℚ) :
    ∀ (k v : ℕ), gray_init_upto cbrt k lut v =
      if v < k then (rgb_to_lab cbrt lut v v v).l else lut v := by
  intro k
  induction k with
  | zero => intro v; simp [gray_init_upto]
  | succ j ih =>
    intro v
    unfold gray_init_upto gray_init_step
    by_cases hv : v = j
    · subst hv
      rw [Function.update_same, if_pos (by omega)]
      have hread : gray_init_upto cbrt v lut v = lut v := by
        rw [ih]
        simp
      rw [rgb_to_lab_congr cbrt _ lut v v v hread hread hread]
    · rw [Function.update_noteq hv, ih]
      by_cases hvj : v < j
      · rw [if_pos hvj, if_pos (by omega)]
      · rw [if_neg hvj, if_neg (by omega)]

/-- C9: for every 8-bit value, every gamma table and every cube-root
function, the GRAY path after `convert_image_row_gray_init` (a single
lookup in the rewritten table) yields exactly the luma the RGB path
computes for the pixel `(v, v, v)` with the original table — so the two
paths produce identical luma planes for any image. -/
theorem gray_path_equals_rgb_path (cbrt : ℚ → ℚ) (lut : ℕ → ℚ) (row : ℕ → ℕ) (x : ℕ)
    (h : row x < 256) :
    convert_image_row_gray (convert_image_row_gray_init cbrt lut) row x =
      convert_image_row_rgb_luma cbrt lut row row row x := by
  unfold convert_image_row_gray convert_image_row_gray_init convert_image_row_rgb_luma
  rw [gray_init_upto_eval, if_pos h]

/-- Witness for C9 at a concrete table, cube root and row. -/
theorem gray_path_equals_rgb_path_witness :
    rowW 0 < 256 ∧
      convert_image_row_gray (convert_image_row_gray_init id lutW) rowW 0 =
        convert_image_row_rgb_luma id lutW rowW rowW rowW 0 :=
  ⟨by decide, gray_path_equals_rgb_path id lutW rowW 0 (by decide)⟩

/-- Helper used by several theorems: the channel compare value as the mean
of the specification's per-pixel SSIM (same statement as the C1 theorem). -/
theorem compare_channel_value_eq (o m : Chan)
    (hw : o.width = m.width) (hh : o.height = m.height) :
    (dssim_compare_channel o m).1 = specChannelMean o m := by
  have hcond : ¬(o.width ≠ m.width ∨ o.height ≠ m.height) := by simp [hw, hh]
  unfold dssim_compare_channel specChannelMean
  rw [if_neg hcond]
  simp only [foldl_add_range, zero_add]
  congr 1
  refine Finset.sum_congr rfl (fun off _ => ?_)
  unfold ssimAt specSsimAt
  ring

/-- An in-range `List.getD` read is a member of the list. -/
theorem getD_mem_of_lt {α : Type} (l : List α) (i : ℕ) (d : α) (h : i < l.length) :
    l.getD i d ∈ l := by
  induction l generalizing i with
  | nil => simp at h
  | cons a t ih =>
    cases i with
    | zero => simp
    | succ j =>
      simp only [List.getD_cons_succ]
      exact List.mem_cons_of_mem _ (ih j (by simpa using h))

/-- Squares of a 3-point average: if each square is dominated, so is the
square of the average (Cauchy–Schwarz for three points). -/
theorem three_avg_sq (x y z x' y' z' : ℚ) (hx : x * x ≤ x') (hy : y * y ≤ y')
    (hz : z * z ≤ z') : ((x + y + z) / 3) * ((x + y + z) / 3) ≤ (x' + y' + z') / 3 := by
  nlinarith [sq_nonneg (x - y), sq_nonneg (y - z), sq_nonneg (x - z)]

/-- One blur pass preserves pointwise square domination. -/
theorem blur_row_once_sq (w : ℕ) (a b : ℕ → ℚ) (h : ∀ i, a i * a i ≤ b i) :
    ∀ i, blur_row_once w a i * blur_row_once w a i ≤ blur_row_once w b i := by
  intro i
  unfold blur_row_once
  exact three_avg_sq _ _ _ _ _ _ (h _) (h _) (h _)

/-- Iterated blur passes preserve pointwise square domination. -/
theorem blur_row_iter_sq (w : ℕ) : ∀ (n : ℕ) (a b : ℕ → ℚ), (∀ i, a i * a i ≤ b i) →
    ∀ i, ((blur_row_once w)^[n] a) i * ((blur_row_once w)^[n] a) i ≤
      ((blur_row_once w)^[n] b) i := by
  intro n
  induction n with
  | zero => intro a b h i; simpa using h i
  | succ k ih =>
    intro a b h i
    simp only [Function.iterate_succ_apply']
    exact blur_row_once_sq w _ _ (ih a b h) i

/-- The horizontal stage preserves pointwise square domination. -/
theorem regular_1d_blur_sq (w runs : ℕ) (p q : Plane) (h : ∀ x y, p x y * p x y ≤ q x y) :
    ∀ x y, regular_1d_blur w runs none p x y * regular_1d_blur w runs none p x y ≤
      regular_1d_blur w runs none q x y := by
  intro x y
  cases runs with
  | zero => exact h x y
  | succ r =>
    exact blur_row_iter_sq w (r + 1) (fun t => p t y) (fun t => q t y) (fun i => h i y) x

/-- The full 2-D blur preserves pointwise square domination (Jensen's
inequality for the separable box blur: `blur(p)² ≤ blur(q)` whenever
`p² ≤ q` pointwise). -/
theorem blur_none_sq (w h size : ℕ) (p q : Plane) (hpq : ∀ x y, p x y * p x y ≤ q x y) :
    ∀ x y, blur w h size none p x y * blur w h size none p x y ≤
      blur w h size none q x y := by
  intro x y
  exact regular_1d_blur_sq h size (transposeP (regular_1d_blur w size none p))
    (transposeP (regular_1d_blur w size none q))
    (fun x' y' => regular_1d_blur_sq w size p q hpq y' x') y x

/-- Blurring through the `square_row` callback is blurring the squared
plane, for at least one pass (the C applies the callback on run 0). -/
theorem blur_square_row_eq (w h size : ℕ) (hs : 1 ≤ size) (p : Plane) :
    blur w h size (some square_row) p = blur w h size none (squareP p) := by
  cases size with
  | zero => omega
  | succ r => rfl

/-- The blurred square dominates the square of the blurred image: the
pointwise variance `img_sq_blur − mu²` of a preprocessed channel is
non-negative. -/
theorem blur_sq_le_blur_square (w h size : ℕ) (hs : 1 ≤ size) (p : Plane) :
    ∀ x y, blur w h size none p x y * blur w h size none p x y ≤
      blur w h size (some square_row) p x y := by
  intro x y
  rw [blur_square_row_eq w h size hs]
  exact blur_none_sq w h size p (squareP p) (fun x' y' => le_refl _) x y

/-- The specification's per-pixel SSIM of a channel against itself is
exactly 1 whenever the blurred square dominates the squared mean (so the
denominator is positive). -/
theorem specSsimAt_self (M Q : Plane) (h2 : ∀ x y, M x y * M x y ≤ Q x y) (w off : ℕ) :
    specSsimAt M M Q Q Q w off = 1 := by
  unfold specSsimAt
  have hMQ : M (off % w) (off / w) ^ 2 ≤ Q (off % w) (off / w) := by
    have := h2 (off % w) (off / w)
    nlinarith
  have hden : (0 : ℚ) <
      (M (off % w) (off / w) ^ 2 + M (off % w) (off / w) ^ 2 + 1 / 10000) *
        ((Q (off % w) (off / w) - M (off % w) (off / w) ^ 2) +
          (Q (off % w) (off / w) - M (off % w) (off / w) ^ 2) + 9 / 10000) := by
    apply mul_pos
    · positivity
    · nlinarith
  rw [div_eq_one_iff_eq (ne_of_gt hden)]
  ring

/-- Comparing a preprocessed channel against itself yields exactly 1. -/
theorem compare_channel_self (c : Chan) (h : GoodChan c) :
    (dssim_compare_channel c c).1 = 1 := by
  obtain ⟨p, himg, hmu, hsq, hbs, hwh⟩ := h
  rw [compare_channel_value_eq c c rfl rfl]
  unfold specChannelMean get_img1_img2_blur
  simp only [himg, hmu, hsq, Option.getD_some]
  have hPB : blur c.width c.height c.blur_size none (fun x y => p x y * p x y) =
      blur c.width c.height c.blur_size (some square_row) p :=
    (blur_square_row_eq c.width c.height c.blur_size hbs p).symm
  rw [hPB]
  have hone : ∀ off ∈ Finset.range (c.width * c.height),
      specSsimAt (blur c.width c.height c.blur_size none p)
        (blur c.width c.height c.blur_size none p)
        (blur c.width c.height c.blur_size (some square_row) p)
        (blur c.width c.height c.blur_size (some square_row) p)
        (blur c.width c.height c.blur_size (some square_row) p) c.width off = 1 :=
    fun off _ => specSsimAt_self _ _
      (blur_sq_le_blur_square c.width c.height c.blur_size hbs p) c.width off
  rw [Finset.sum_congr rfl hone, Finset.sum_const, Finset.card_range, nsmul_eq_mul, mul_one]
  exact div_self (Nat.cast_ne_zero.mpr (by omega))

/-- C5: comparing an image against a clone of itself (the identical channel
data, as produced by preprocessing the same pixel data with the same
attributes) yields exactly 0: every per-pixel SSIM of a channel against
itself is exactly 1, so the weighted mean is 1 and `1/1 − 1 = 0`.  The
hypotheses say the image is well-formed (each channel at each scale is
preprocessed and non-empty, channel 0 is luma) and the attribute weights
are the usual non-negative ones with a positive weight at scale 0. -/
theorem dssim_compare_self_eq_zero (attr : dssim_attr) (img : dssim_image)
    (hgood : ∀ chain ∈ img.chan, ∀ c ∈ chain, GoodChan c)
    (hne : img.chan ≠ [])
    (hlen : 1 ≤ (img.chan.getD 0 []).length)
    (hluma : ((img.chan.getD 0 []).getD 0 dChan).is_chroma = false)
    (hns : 1 ≤ attr.num_scales)
    (hsw : ∀ s < attr.num_scales.toNat, 0 ≤ attr.scale_weights s)
    (hsw0 : 0 < attr.scale_weights 0)
    (hcw : 0 ≤ attr.color_weight) :
    (dssim_compare attr img img).1 = FVal.val 0 := by
  have hwnn : ∀ (ch : ℕ), ∀ s ∈ Finset.range
      (comparedScales attr (img.chan.getD ch []) (img.chan.getD ch [])),
      0 ≤ specWeight attr (specPair img img ch s).1 s := by
    intro ch s hs
    unfold specWeight
    apply mul_nonneg
    · split
      · exact hcw
      · norm_num
    · apply hsw
      have := Finset.mem_range.mp hs
      unfold comparedScales at this
      omega
  have hST : specS attr img img = specT attr img img := by
    unfold specS specT
    refine Finset.sum_congr rfl (fun ch hch => ?_)
    refine Finset.sum_congr rfl (fun s hs => ?_)
    have hchlt : ch < img.chan.length := by
      have := Finset.mem_range.mp hch
      omega
    have hslt : s < (img.chan.getD ch []).length := by
      have := Finset.mem_range.mp hs
      unfold comparedScales at this
      omega
    have hgc : GoodChan (specPair img img ch s).1 :=
      hgood _ (getD_mem_of_lt _ _ _ hchlt) _ (getD_mem_of_lt _ _ _ hslt)
    rw [show (specPair img img ch s).2 = (specPair img img ch s).1 from rfl]
    rw [compare_channel_self _ hgc, mul_one]
  have hL : 0 < img.chan.length := List.length_pos.mpr hne
  have hTpos : 0 < specT attr img img := by
    unfold specT
    apply Finset.sum_pos'
    · intro ch _
      exact Finset.sum_nonneg (hwnn ch)
    · refine ⟨0, ?_, ?_⟩
      · rw [Finset.mem_range]
        omega
      · apply Finset.sum_pos' (hwnn 0)
        refine ⟨0, ?_, ?_⟩
        · rw [Finset.mem_range]
          unfold comparedScales
          omega
        · unfold specWeight specPair
          rw [hluma]
          simp only [Bool.false_eq_true, if_false, one_mul]
          exact hsw0
  have hSne : specS attr img img ≠ 0 := by
    rw [hST]
    exact ne_of_gt hTpos
  rw [dssim_compare_fst]
  unfold aggregate
  rw [if_neg hSne, hST, div_self (ne_of_gt hTpos), sub_self]

/-- Witness for C5: a concrete preprocessed 1×1 image compared against
itself under a single-scale attribute bundle gives exactly 0. -/
theorem dssim_compare_self_eq_zero_witness :
    (dssim_compare attr1 img1x1 img1x1).1 = FVal.val 0 := by
  apply dssim_compare_self_eq_zero
  · intro chain hchain c hc
    simp only [img1x1, dssim_preprocess_channel, List.mem_singleton] at hchain
    subst hchain
    simp only [List.mem_singleton] at hc
    subst hc
    exact ⟨_, rfl, rfl, rfl, le_refl 1, by decide⟩
  · simp [img1x1]
  · decide
  · decide
  · decide
  · intro s hs
    rw [show attr1.num_scales.toNat = 1 from by decide] at hs
    have hs0 : s = 0 := by omega
    subst hs0
    rw [show attr1.scale_weights 0 = 1 from by with_unfolding_all rfl]
    norm_num
  · rw [show attr1.scale_weights 0 = 1 from by with_unfolding_all rfl]
    norm_num
  · rw [show attr1.color_weight = 95 / 100 from by with_unfolding_all rfl]
    norm_num
